import Mathlib

/-!
# Verification of the IMM sampler (`nipy/neurospin/clustering/imm.py`)

Shallow embedding of the Infinite Mixture Model (Dirichlet process mixture)
sampler of `nipy.neurospin.clustering.imm`, together with proofs and
refutations of the frozen claims about it.

Modelling conventions:

* The repository is Python 2 code using numpy.  Integer arithmetic on python
  ints (notably `n_samples/k` in `cross_validated_update`) is Python 2 floor
  division; numpy boolean-mask and fancy indexing of an array produces a
  *copy*; in-place assignment `z[mask] = v` writes through to the base array.
  The embedding encodes these semantics explicitly where they matter.
* The finite-mixture base class `BGMM` (`BGMM.sample_indicator`,
  `BGMM.update`, `pop`, `unweighted_likelihood`) is an external capability;
  its outputs enter the embedding as universally quantified data
  (e.g. an arbitrary draw vector with entries in `[0, k]`, or an arbitrary
  nonnegative count vector).
* Exact rational arithmetic (`ℚ`) stands in for numpy floats where only
  field operations occur, and real arithmetic (`ℝ`) where `exp`, `log`,
  `gammaln` and determinants occur.  This is faithful for the structural
  claims proved here (lengths, index bookkeeping, positivity, replication),
  which hold in exact arithmetic for the same reasons the float code
  computes finite positive values.
-/

namespace IMMV

/-! ## Definitions

### Weight update (`IMM.update_weights`, lines 247-258)

    pop =  np.hstack((self.pop(z), 0))
    self.weights = pop + self.prior_weights
    self.weights /= self.weights.sum()

`self.pop(z)` is the BGMM capability returning the per-cluster point counts,
an array of length `self.k`; it is abstracted as the list `counts`.
`self.prior_weights` is `[alpha]` (set by `set_priors`), broadcast by numpy
over the length-`k+1` array, i.e. `alpha` is added to every entry. -/

/-- Embeds `IMM.update_weights`: append a `0` count for the new-cluster slot, add the
prior concentration `alpha` to every entry, and normalize by the total. -/
def update_weights (counts : List ℚ) (alpha : ℚ) : List ℚ :=
  let pop := counts ++ [0]
  let w := pop.map (fun p => p + alpha)
  w.map (fun v => v / w.sum)

/-! ### Cross-validation fold layout (`IMM.cross_validated_update`, lines 179-200)

    n_samples = x.shape[0]
    idx = np.argsort(np.random.rand(n_samples))
    j = np.ceil(n_samples/k)
    for i in range(k):
        test = np.zeros(n_samples).astype('bool')
        test[idx[i*j:min(n_samples,j*(i+1))]] = 1
        train = np.logical_not(test)
        ...

The file is Python 2, so `n_samples/k` on python ints is *floor* division;
`np.ceil` then receives an already-truncated integer and is the identity.
The permutation `idx` (an argsort of uniform noise) enters the embedding as
an arbitrary function `idx : ℕ → ℕ`; positions `i*j ≤ p < min n ((i+1)*j)`
of the permuted order make up fold `i`'s held-out (test) set, and the
training set is the complement `train = np.logical_not(test)` within the
`n` points. -/

/-- Per-fold width `j = np.ceil(n_samples/k)`: Python 2 floor division makes
this `⌊n / folds⌋`. -/
def fold_width (n folds : ℕ) : ℕ := n / folds

/-- Positions (indices into the permuted order `idx`) held out in fold `i`:
the slice bounds of `idx[i*j : min(n_samples, j*(i+1))]`. -/
def fold_positions (n folds i : ℕ) : Finset ℕ :=
  Finset.Ico (i * fold_width n folds) (min n ((i + 1) * fold_width n folds))

/-- Points held out in fold `i`: `test[idx[i*j : min(n, j*(i+1))]] = 1`. -/
def test_points (idx : ℕ → ℕ) (n folds i : ℕ) : Finset ℕ :=
  (fold_positions n folds i).image idx

/-- Training points of fold `i`: `train = np.logical_not(test)`, i.e. the
complement of the test set among the `n` points; `x[train]` and `z[train]`
select exactly these points. -/
def train_points (idx : ℕ → ℕ) (n folds i : ℕ) : Finset ℕ :=
  Finset.range n \ test_points idx n folds i

/-! ### Label compaction (`IMM.reduce`, lines 206-219)

    for i,k in enumerate(np.unique(z)):
        z[z==k] = i
    self.k = z.max()+1

`np.unique(z)` is the sorted list of distinct values of `z`. -/

/-- Embeds `np.unique(z)`: the distinct labels of `z` in increasing order
(insertion sort of the deduplicated list). -/
def uniqueSorted (z : List ℕ) : List ℕ := (z.dedup).insertionSort (· ≤ ·)

/-- One loop pass `z[z==a] = i`. -/
def relabelOne (a i : ℕ) (z : List ℕ) : List ℕ :=
  z.map (fun v => if v = a then i else v)

/-- The `reduce` loop `for i,a in enumerate(u): z[z==a] = i`, with the
`enumerate` counter `i` made explicit. -/
def reduce_loop (i : ℕ) (u : List ℕ) (z : List ℕ) : List ℕ :=
  match u with
  | [] => z
  | a :: rest => reduce_loop (i + 1) rest (relabelOne a i z)

/-- The effect of the remaining loop passes on one entry of `z` (the loop
body acts independently on each entry). -/
def applyLoop (i : ℕ) (u : List ℕ) (v : ℕ) : ℕ :=
  match u with
  | [] => v
  | a :: rest => applyLoop (i + 1) rest (if v = a then i else v)

/-- Embeds `IMM.reduce`: run the relabeling loop over `np.unique(z)` and set
`self.k = z.max()+1`.  The source mutates `z` in place; the embedding
returns the relabeled vector together with the new `k`.  (numpy's `max`
requires a non-empty array; on non-empty `z` the `foldr max 0` below is its
maximum.) -/
def reduce (z : List ℕ) : List ℕ × ℕ :=
  let zr := reduce_loop 0 (uniqueSorted z) z
  (zr, zr.foldr max 0 + 1)

/-! ### One fold body of `cross_validated_update` (lines 184-200)

    self.reduce(z[train])
    self.update(x[train], z[train])

`z[train]` is numpy boolean-mask (fancy) indexing, which returns a *fresh
copy* of the selected entries.  `self.reduce` relabels its argument in
place, so it relabels that temporary copy; the caller's `z` is untouched,
and the second `z[train]` — the labels handed to `self.update` — is a new
copy of the *original, uncompacted* labels. -/

/-- Embeds `z[train]` for a boolean mask `train` (a fresh list, as in numpy). -/
def maskSelect (z : List ℕ) (mask : List Bool) : List ℕ :=
  ((z.zip mask).filter (fun p => p.2)).map (fun p => p.1)

/-- Observable outcome of one fold body: the caller's assignment vector
after the `reduce` call, the new `self.k` it computed, and the label vector
passed to the training `update` call. -/
structure CVFoldStep where
  callerZ : List ℕ
  kNew : ℕ
  zForUpdate : List ℕ

/-- The `reduce`/`update` prefix of one fold of `cross_validated_update`,
under numpy copy semantics: `reduce` runs on the temporary copy `z[train]`,
the caller's `z` is unchanged, and `update` receives a second fresh copy of
the original labels. -/
def cv_fold_step (z : List ℕ) (train : List Bool) : CVFoldStep :=
  let ztmp := maskSelect z train
  let r := reduce ztmp
  { callerZ := z, kNew := r.2, zForUpdate := maskSelect z train }

/-! ### Indicator sampling (`IMM.sample_indicator`, lines 261-281)

    z = BGMM.sample_indicator(self, like)
    z[z==self.k] = self.k + np.arange(np.sum(z==self.k))
    return z

`BGMM.sample_indicator(like)` is the external base capability: one
categorical draw per row of the `(n, k+1)` likelihood matrix, i.e. an
arbitrary vector `z` with entries in `[0, k]` (column `k` is the
"new cluster" column).  The IMM override rewrites the entries equal to
`k`: `np.arange` over their number assigns `k + c` to the `c`-th such
position in point order. -/

/-- The relabeling pass `z[z==k] = k + np.arange(np.sum(z==k))`, with `c`
the running count of earlier positions that drew the new-cluster column. -/
def relabel_new (k : ℕ) : ℕ → List ℕ → List ℕ
  | _, [] => []
  | c, v :: rest =>
    if v = k then (k + c) :: relabel_new k (c + 1) rest
    else v :: relabel_new k c rest

/-- Embeds `IMM.sample_indicator`, applied to the base draw `z`. -/
def sample_indicator (k : ℕ) (z : List ℕ) : List ℕ := relabel_new k 0 z

/-! ### Prior re-dimensioning (`IMM.set_priors` lines 36-64,
`IMM.update` lines 222-245)

`set_priors` caches one canonical row of each prior hyperparameter:
`prior_means = mx` (a single row), `prior_dof = [self.dim+2]`,
`prior_shrinkage = [0.01]`, `_dets = [det(px[0])]` and
`_inv_prior_scale = inv(px[0])` (a single matrix).  `update` re-dimensions
them to `self.k` rows before delegating to `BGMM.update` (which draws
`means`/`precisions` only and does not touch the prior arrays):

    self.prior_means = np.repeat(self.prior_means[:1], self.k, 0)
    self.prior_dof = self.prior_dof[0]*np.ones(self.k)
    self.prior_shrinkage = self.prior_shrinkage[0]*np.ones(self.k)
    self._dets = self._dets[0]*np.ones(self.k)
    self._inv_prior_scale = np.repeat(self._inv_prior_scale[:1], self.k, 0)

The numerical canonical values are irrelevant to the replication claim and
enter as parameters.  `x[0]` on an empty numpy array raises `IndexError`,
so the embedded re-dimensioning step is `Option`-valued, `none` on empty
arrays (a state unreachable after `set_priors`). -/

/-- The prior hyperparameter arrays re-dimensioned by `IMM.update` (the
leading underscores of `_dets` and `_inv_prior_scale` are dropped). -/
structure PriorState where
  prior_means : List (List ℚ)
  prior_dof : List ℚ
  prior_shrinkage : List ℚ
  dets : List ℚ
  inv_prior_scale : List (List (List ℚ))

/-- The prior arrays as cached by `set_priors`: one canonical row each. -/
def set_priors_state (mx : List ℚ) (dof shrink detp : ℚ)
    (ib : List (List ℚ)) : PriorState :=
  { prior_means := [mx], prior_dof := [dof], prior_shrinkage := [shrink],
    dets := [detp], inv_prior_scale := [ib] }

/-- The re-dimensioning prefix of `IMM.update`: replicate row `0` of every
prior array `self.k` times (`x[0]*np.ones(k)` and `np.repeat(x[:1], k, 0)`
both produce `k` copies of row `0`); `none` models the `IndexError` raised
by `x[0]` on an empty array. -/
def update_redim (k : ℕ) (s : PriorState) : Option PriorState :=
  match s.prior_means.head?, s.prior_dof.head?, s.prior_shrinkage.head?,
      s.dets.head?, s.inv_prior_scale.head? with
  | some m, some a, some t, some dv, some ib =>
    some { prior_means := List.replicate k m,
           prior_dof := List.replicate k a,
           prior_shrinkage := List.replicate k t,
           dets := List.replicate k dv,
           inv_prior_scale := List.replicate k ib }
  | _, _, _, _, _ => none

/-- A sequence of `update` calls, `ks` listing the value `self.k` holds at
each call (as set by the preceding `reduce`). -/
def update_seq (ks : List ℕ) (s : PriorState) : Option PriorState :=
  ks.foldlM (fun s k => update_redim k s) s

/-- All five prior arrays holding `k` copies of the canonical row. -/
def replicated_state (k : ℕ) (mx : List ℚ) (dof shrink detp : ℚ)
    (ib : List (List ℚ)) : PriorState :=
  { prior_means := List.replicate k mx, prior_dof := List.replicate k dof,
    prior_shrinkage := List.replicate k shrink,
    dets := List.replicate k detp, inv_prior_scale := List.replicate k ib }

/-! ### Likelihood under the prior
(`IMM.likelihood_under_the_prior`, lines 283-317)

    a = self.prior_dof[0]
    tau = self.prior_shrinkage[0]
    tau /= (1+tau)
    m = self.prior_means[0]
    b = self.prior_scale
    ib = np.linalg.inv(b[0])
    ldb = np.log(det(b[0]))
    scalar_w = np.log(tau/np.pi) *self.dim
    scalar_w += 2*gammaln((a+1)/2)
    scalar_w -= 2*gammaln((a-self.dim)/2)
    scalar_w -= ldb*a
    w = scalar_w * np.ones(x.shape[0])
    for i in range(x.shape[0]):
        w[i] -= (a+1) * np.log(det(ib + tau*(m-x[i:i+1])*(m-x[i:i+1]).T))
    w = w/2
    return np.exp(w)

`(m-x[i])*(m-x[i]).T` is numpy elementwise multiplication of a `(1,d)` row
with a `(d,1)` column, which broadcasts to the `(d,d)` outer product
`vecMulVec (m - x i) (m - x i)`.  The canonical prior rows
(`a` = dof, `tau0` = shrinkage, `m` = mean, `b` = scale matrix) are passed
directly. -/

/-- Embeds `scipy.special.gammaln`: log of the Gamma function. -/
noncomputable def gammaln (x : ℝ) : ℝ := Real.log (Real.Gamma x)

/-- Embeds `IMM.likelihood_under_the_prior` over the reals. -/
noncomputable def likelihood_under_the_prior {d : ℕ} (a tau0 : ℝ)
    (m : Fin d → ℝ) (b : Matrix (Fin d) (Fin d) ℝ)
    (x : List (Fin d → ℝ)) : List ℝ :=
  let tau := tau0 / (1 + tau0)
  let ib := b⁻¹
  let ldb := Real.log b.det
  let scalar_w := Real.log (tau / Real.pi) * d + 2 * gammaln ((a + 1) / 2)
    - 2 * gammaln ((a - d) / 2) - ldb * a
  x.map (fun xi =>
    Real.exp ((scalar_w - (a + 1)
      * Real.log (Matrix.det (ib + tau • Matrix.vecMulVec (m - xi) (m - xi)))) / 2))

/-! ### Degenerate data in `set_priors` (lines 36-64)

    mx = np.reshape(x.mean(0),(1,self.dim))
    dx = x-mx
    vx = np.dot(dx.T,dx)/x.shape[0]
    px = np.reshape(np.diag(1.0/np.diag(vx)),elshape)

The body performs no validation and contains no `raise`; numpy evaluates
`1.0/0.0` to `inf` with only a `RuntimeWarning`, so `set_priors` returns
normally on degenerate (constant-dimension) data and the non-finite entry
flows into `px` and its cached determinant and inverse.  The embedding
returns `Except.ok` unconditionally — mirroring the absence of any error
path in the source — and marks non-finite reciprocals with `none`. -/

/-- Column mean `x.mean(0)` at coordinate `t`. -/
def col_mean (x : List (List ℚ)) (t : ℕ) : ℚ :=
  (x.map (fun r => r.getD t 0)).sum / x.length

/-- Diagonal of the centered covariance `vx = np.dot(dx.T, dx)/n`:
entry `t` is `(∑ i, (x[i][t] - mean_t)^2) / n`. -/
def vx_diag (dim : ℕ) (x : List (List ℚ)) : List ℚ :=
  (List.range dim).map (fun t =>
    (x.map (fun r => (r.getD t 0 - col_mean x t) ^ 2)).sum / x.length)

/-- numpy `1.0/v`: a finite reciprocal for `v ≠ 0`; `none` stands for the
non-finite `inf` produced (without an exception) at `v = 0`. -/
def np_recip (v : ℚ) : Option ℚ :=
  if v = 0 then none else some (1 / v)

/-- The prior quantities `set_priors` computes (diagonal scale part). -/
structure ScalePrior where
  mx : List ℚ
  px_diag : List (Option ℚ)
  dof : ℚ
  shrinkage : ℚ

/-- Embeds `IMM.set_priors` (scale part): always returns normally, since the
source has no validation and numpy division by zero does not raise. -/
def set_priorsE (dim : ℕ) (x : List (List ℚ)) : Except Unit ScalePrior :=
  Except.ok { mx := (List.range dim).map (col_mean x),
              px_diag := (vx_diag dim x).map np_recip,
              dof := (dim : ℚ) + 2,
              shrinkage := 1 / 100 }

/-- Summing a list after dividing each entry by `s` divides the sum by `s`. -/
theorem sum_map_div (l : List ℚ) (s : ℚ) :
    (l.map (fun v => v / s)).sum = l.sum / s := by
  induction l with
  | nil => simp
  | cons a t ih => simp [ih, add_div]

/-- Summing a list after adding `a` to each entry adds `length * a`. -/
theorem sum_map_add_const (l : List ℚ) (a : ℚ) :
    (l.map (fun v => v + a)).sum = l.sum + l.length * a := by
  induction l with
  | nil => simp
  | cons b t ih => simp [ih]; ring

/-- The total mass that `update_weights` normalizes by. -/
theorem update_weights_total (counts : List ℚ) (alpha : ℚ) :
    (((counts ++ [0]).map (fun p => p + alpha)).sum)
      = counts.sum + (counts.length + 1) * alpha := by
  rw [sum_map_add_const]
  simp

/-- The normalizing total is positive when counts are nonnegative and
`alpha > 0`. -/
theorem update_weights_total_pos (counts : List ℚ) (alpha : ℚ)
    (hnn : ∀ c ∈ counts, 0 ≤ c) (ha : 0 < alpha) :
    0 < ((counts ++ [0]).map (fun p => p + alpha)).sum := by
  rw [update_weights_total]
  have h1 : 0 ≤ counts.sum := List.sum_nonneg hnn
  have h2 : 0 < ((counts.length : ℚ) + 1) * alpha := by
    apply mul_pos _ ha
    positivity
  linarith

/-- C7: for every `k ≥ 0`, every nonnegative per-cluster count vector of
length `k` and every concentration `alpha > 0`, `update_weights` returns a
vector of length `k+1` that sums to `1`, obtained by appending a `0` count
for the new-cluster slot, adding the prior concentration to every entry and
normalizing. -/
theorem update_weights_sums_to_one (counts : List ℚ) (alpha : ℚ) (k : ℕ)
    (hlen : counts.length = k) (hnn : ∀ c ∈ counts, 0 ≤ c) (ha : 0 < alpha) :
    (update_weights counts alpha).length = k + 1 ∧
      (update_weights counts alpha).sum = 1 := by
  have hpos := update_weights_total_pos counts alpha hnn ha
  constructor
  · simp [update_weights, hlen]
  · unfold update_weights
    rw [sum_map_div, div_self (ne_of_gt hpos)]

/-- Witness for C7 at `counts = [2, 3]`, `alpha = 1/2`. -/
theorem update_weights_sums_to_one_witness :
    (update_weights [2, 3] (1/2)).length = 2 + 1 ∧
      (update_weights [2, 3] (1/2)).sum = 1 :=
  update_weights_sums_to_one [2, 3] (1/2) 2 (by decide)
    (by intro c hc; fin_cases hc <;> norm_num) (by norm_num)

/-- Appending a single element determines `getLastD`. -/
theorem getLastD_append_single (l : List ℚ) (a d : ℚ) :
    (l ++ [a]).getLastD d = a := by
  induction l generalizing d with
  | nil => rfl
  | cons b t ih =>
    rw [List.cons_append, List.getLastD_cons]
    exact ih b

/-- C10: for every concentration `alpha > 0`, the last entry of the weight
vector produced by `update_weights` (the new-cluster slot) equals `alpha`
divided by the normalizing total, hence is strictly positive: the indicator
draw always assigns nonzero probability to spawning a new cluster. -/
theorem update_weights_last_pos (counts : List ℚ) (alpha : ℚ) (k : ℕ)
    (hlen : counts.length = k) (hnn : ∀ c ∈ counts, 0 ≤ c) (ha : 0 < alpha) :
    (update_weights counts alpha).getLastD 0
        = alpha / (counts.sum + (k + 1) * alpha) ∧
      0 < (update_weights counts alpha).getLastD 0 := by
  have hpos := update_weights_total_pos counts alpha hnn ha
  have htot := update_weights_total counts alpha
  have hshape : update_weights counts alpha
      = (counts.map (fun p => p + alpha)).map
          (fun v => v / ((counts ++ [0]).map (fun p => p + alpha)).sum)
        ++ [(0 + alpha) / ((counts ++ [0]).map (fun p => p + alpha)).sum] := by
    simp [update_weights]
  have hlast : (update_weights counts alpha).getLastD 0
      = (0 + alpha) / ((counts ++ [0]).map (fun p => p + alpha)).sum := by
    rw [hshape, getLastD_append_single]
  constructor
  · rw [hlast, htot, zero_add, hlen]
  · rw [hlast, zero_add]
    exact div_pos ha hpos

/-- Witness for C10 at `counts = [2, 3]`, `alpha = 1/2`. -/
theorem update_weights_last_pos_witness :
    (update_weights [2, 3] (1/2)).getLastD 0
        = (1/2) / ((2 + 3 : ℚ) + (2 + 1) * (1/2)) ∧
      0 < (update_weights [2, 3] (1/2)).getLastD 0 := by
  have h := update_weights_last_pos [2, 3] (1/2) 2 (by decide)
    (by intro c hc; fin_cases hc <;> norm_num) (by norm_num)
  simpa using h

/-- C3 (refutation of the claim as stated, exhibiting the coverage gap):
with `n = 5` points and `folds = 2`, fold width is `⌊5/2⌋ = 2` (Python 2
floor division; the `np.ceil` in the source is a no-op on the truncated
integer), so folds 0 and 1 hold out permuted positions `{0,1}` and `{2,3}`
respectively and the point at permuted position `4` (here under the identity
permutation, point `4`) is held out in *no* fold — its indicator is never
resampled and its entry of the returned likelihood stays `0`.  The blocks
therefore do not cover all `n` points, contradicting the claim. -/
theorem cv_fold_coverage_gap :
    test_points id 5 2 0 = ({0, 1} : Finset ℕ) ∧
      test_points id 5 2 1 = ({2, 3} : Finset ℕ) ∧
      test_points id 5 2 0 ∪ test_points id 5 2 1 ≠ Finset.range 5 ∧
      (4 : ℕ) ∉ test_points id 5 2 0 ∪ test_points id 5 2 1 := by
  refine ⟨by decide, by decide, by decide, by decide⟩

/-- C4: in `cross_validated_update`, the training set of every fold is
exactly the complement (among the `n` points) of that fold's held-out set:
a point held out in fold `i` never appears among the points selected by
`x[train]` for fold `i`'s `reduce`/`update` calls, and every non-held-out
point does. -/
theorem cv_train_is_complement (idx : ℕ → ℕ) (n folds i p : ℕ) :
    (p ∈ test_points idx n folds i → p ∉ train_points idx n folds i) ∧
      (p ∈ Finset.range n → p ∉ test_points idx n folds i →
        p ∈ train_points idx n folds i) := by
  constructor
  · intro hp
    simp [train_points, hp]
  · intro hn hp
    simp [train_points, hn, hp]

/-- Witness for C4 at `idx = id`, `n = 5`, `folds = 2`, fold `0`: point `0`
is held out there and excluded from training, while point `4` trains. -/
theorem cv_train_is_complement_witness :
    (0 : ℕ) ∉ train_points id 5 2 0 ∧ (4 : ℕ) ∈ train_points id 5 2 0 :=
  ⟨(cv_train_is_complement id 5 2 0 0).1 (by decide),
   (cv_train_is_complement id 5 2 0 4).2 (by decide) (by decide)⟩

/-- The relabeling loop acts pointwise on `z`. -/
theorem reduce_loop_map (u : List ℕ) (i : ℕ) (z : List ℕ) :
    reduce_loop i u z = z.map (applyLoop i u) := by
  induction u generalizing i z with
  | nil =>
    simp only [reduce_loop, applyLoop]
    exact (List.map_id z).symm
  | cons a rest ih =>
    rw [reduce_loop, ih, relabelOne, List.map_map]
    apply List.map_congr_left
    intro v _
    rfl

/-- A value equal to none of the remaining loop labels is untouched. -/
theorem applyLoop_of_forall_ne (u : List ℕ) (i v : ℕ) (h : ∀ a ∈ u, v ≠ a) :
    applyLoop i u v = v := by
  induction u generalizing i with
  | nil => rfl
  | cons a rest ih =>
    rw [applyLoop, if_neg (h a (by simp))]
    exact ih (i + 1) (fun b hb => h b (by simp [hb]))

/-- Running the loop from counter `i` over a strictly increasing label list
whose entries are all `≥ i` sends a member `v` to `i +` its rank. -/
theorem applyLoop_rank (u : List ℕ) (i v : ℕ)
    (hs : List.Sorted (· < ·) u) (hlb : ∀ w ∈ u, i ≤ w) (hv : v ∈ u) :
    applyLoop i u v = i + u.indexOf v := by
  induction u generalizing i with
  | nil => cases hv
  | cons a rest ih =>
    have hcons := List.sorted_cons.mp hs
    by_cases hva : v = a
    · subst hva
      rw [applyLoop, if_pos rfl, List.indexOf_cons_self]
      have ha : i ≤ v := hlb v (by simp)
      have hne : ∀ b ∈ rest, i ≠ b := fun b hb =>
        Nat.ne_of_lt (lt_of_le_of_lt ha (hcons.1 b hb))
      rw [applyLoop_of_forall_ne rest (i + 1) i hne]
      omega
    · rw [applyLoop, if_neg hva]
      have hrest : v ∈ rest := by
        rcases List.mem_cons.mp hv with h | h
        · exact absurd h hva
        · exact h
      have hlb' : ∀ w ∈ rest, i + 1 ≤ w := fun w hw =>
        Nat.succ_le_of_lt (lt_of_le_of_lt (hlb a (by simp)) (hcons.1 w hw))
      rw [ih (i + 1) hcons.2 hlb' hrest,
        List.indexOf_cons_ne rest (Ne.symm hva)]
      omega

/-- The list `np.unique(z)` has no duplicate labels. -/
theorem uniqueSorted_nodup (z : List ℕ) : (uniqueSorted z).Nodup :=
  (List.perm_insertionSort _ _).nodup_iff.mpr (List.nodup_dedup _)

/-- The list `np.unique(z)` is strictly increasing. -/
theorem uniqueSorted_sorted_lt (z : List ℕ) :
    List.Sorted (· < ·) (uniqueSorted z) :=
  (List.sorted_insertionSort _ _).lt_of_le (uniqueSorted_nodup z)

/-- The labels of `np.unique(z)` are exactly the labels occurring in `z`. -/
theorem mem_uniqueSorted_iff {z : List ℕ} {v : ℕ} :
    v ∈ uniqueSorted z ↔ v ∈ z := by
  simp [uniqueSorted, (List.perm_insertionSort _ _).mem_iff, List.mem_dedup]

/-- Every entry of `z` is a member of `np.unique(z)`. -/
theorem mem_uniqueSorted {z : List ℕ} {v : ℕ} (hv : v ∈ z) :
    v ∈ uniqueSorted z := mem_uniqueSorted_iff.mpr hv

/-- The relabeled vector is the pointwise rank map: each entry is replaced
by its 0-based rank in the sorted set of distinct input labels. -/
theorem reduce_fst (z : List ℕ) :
    (reduce z).1 = z.map (fun v => (uniqueSorted z).indexOf v) := by
  show reduce_loop 0 (uniqueSorted z) z = _
  rw [reduce_loop_map]
  apply List.map_congr_left
  intro v hv
  rw [applyLoop_rank (uniqueSorted z) 0 v (uniqueSorted_sorted_lt z)
    (fun w _ => Nat.zero_le w) (mem_uniqueSorted hv)]
  omega

/-- A fold `foldr max 0` is bounded by any upper bound of the list. -/
theorem foldr_max_le (l : List ℕ) (m : ℕ) (h : ∀ x ∈ l, x ≤ m) :
    l.foldr max 0 ≤ m := by
  induction l with
  | nil => exact Nat.zero_le m
  | cons a t ih =>
    exact max_le (h a (by simp)) (ih (fun x hx => h x (by simp [hx])))

/-- Every member of the list is bounded by `foldr max 0`. -/
theorem le_foldr_max (l : List ℕ) (x : ℕ) (hx : x ∈ l) :
    x ≤ l.foldr max 0 := by
  induction l with
  | nil => cases hx
  | cons a t ih =>
    rcases List.mem_cons.mp hx with h | h
    · subst h; exact le_max_left _ _
    · exact le_trans (ih h) (le_max_right _ _)

/-- A fold `foldr max 0` of a list with a greatest member computes that member. -/
theorem foldr_max_eq (l : List ℕ) (m : ℕ) (hub : ∀ x ∈ l, x ≤ m)
    (hmem : m ∈ l) : l.foldr max 0 = m :=
  le_antisymm (foldr_max_le l m hub) (le_foldr_max l m hmem)

/-- On non-empty input, the `k` computed by `reduce` is the number of
distinct input labels. -/
theorem reduce_snd (z : List ℕ) (hz : z ≠ []) :
    (reduce z).2 = (uniqueSorted z).length := by
  have hfst := reduce_fst z
  show ((reduce z).1).foldr max 0 + 1 = _
  set u := uniqueSorted z with hu
  have hune : u ≠ [] := by
    rcases List.exists_mem_of_ne_nil z hz with ⟨v, hv⟩
    exact List.ne_nil_of_mem (mem_uniqueSorted hv)
  have hlen : 0 < u.length := List.length_pos.mpr hune
  have hub : ∀ x ∈ (reduce z).1, x ≤ u.length - 1 := by
    intro x hx
    rw [hfst] at hx
    rcases List.mem_map.mp hx with ⟨v, hv, rfl⟩
    have : u.indexOf v < u.length :=
      List.indexOf_lt_length.mpr (mem_uniqueSorted hv)
    omega
  have hmem : u.length - 1 ∈ (reduce z).1 := by
    have hlt : u.length - 1 < u.length := by omega
    have hvz : u[u.length - 1] ∈ z :=
      mem_uniqueSorted_iff.mp (List.getElem_mem _)
    have hidx : u.indexOf u[u.length - 1] = u.length - 1 :=
      List.indexOf_getElem (uniqueSorted_nodup z) _ hlt
    rw [hfst]
    exact List.mem_map.mpr ⟨u[u.length - 1], hvz, hidx⟩
  rw [foldr_max_eq _ _ hub hmem]
  omega

/-- C2: for every non-empty assignment vector `z`, after `reduce` the new
`k` is the number of distinct input labels, every entry of `z` has been
replaced by the 0-based rank of its original label in the sorted set of
distinct input labels, the new labels form exactly the contiguous range
`[0, k)`, and two positions carry the same new label iff they carried the
same original label. -/
theorem reduce_spec (z : List ℕ) (hz : z ≠ []) :
    (reduce z).2 = (uniqueSorted z).length ∧
      (reduce z).1 = z.map (fun v => (uniqueSorted z).indexOf v) ∧
      (∀ x ∈ (reduce z).1, x < (reduce z).2) ∧
      (∀ i < (reduce z).2, i ∈ (reduce z).1) ∧
      (∀ a b, a < z.length → b < z.length →
        ((reduce z).1[a]? = (reduce z).1[b]? ↔ z[a]? = z[b]?)) := by
  have hfst := reduce_fst z
  have hsnd := reduce_snd z hz
  refine ⟨hsnd, hfst, ?_, ?_, ?_⟩
  · intro x hx
    rw [hfst] at hx
    rcases List.mem_map.mp hx with ⟨v, hv, rfl⟩
    rw [hsnd]
    exact List.indexOf_lt_length.mpr (mem_uniqueSorted hv)
  · intro i hi
    rw [hsnd] at hi
    set u := uniqueSorted z with hu
    have hvz : u[i] ∈ z :=
      mem_uniqueSorted_iff.mp (List.getElem_mem _)
    have hidx : u.indexOf u[i] = i :=
      List.indexOf_getElem (uniqueSorted_nodup z) _ hi
    rw [hfst]
    exact List.mem_map.mpr ⟨u[i], hvz, hidx⟩
  · intro a b ha hb
    have hza : z[a] ∈ uniqueSorted z := mem_uniqueSorted (List.getElem_mem _)
    have hzb : z[b] ∈ uniqueSorted z := mem_uniqueSorted (List.getElem_mem _)
    rw [hfst, List.getElem?_map, List.getElem?_map,
      List.getElem?_eq_getElem ha, List.getElem?_eq_getElem hb]
    show some ((uniqueSorted z).indexOf z[a])
        = some ((uniqueSorted z).indexOf z[b]) ↔ _
    rw [Option.some_inj, Option.some_inj]
    exact List.indexOf_inj hza hzb

/-- Witness for C2 at `z = [4, 7, 4, 9]`: `reduce` returns
`([0, 1, 0, 2], 3)`. -/
theorem reduce_spec_witness :
    (reduce [4, 7, 4, 9]).2 = (uniqueSorted [4, 7, 4, 9]).length ∧
      (reduce [4, 7, 4, 9]).1
        = [4, 7, 4, 9].map (fun v => (uniqueSorted [4, 7, 4, 9]).indexOf v) ∧
      (∀ x ∈ (reduce [4, 7, 4, 9]).1, x < (reduce [4, 7, 4, 9]).2) ∧
      (∀ i < (reduce [4, 7, 4, 9]).2, i ∈ (reduce [4, 7, 4, 9]).1) ∧
      (∀ a b, a < ([4, 7, 4, 9] : List ℕ).length →
        b < ([4, 7, 4, 9] : List ℕ).length →
        ((reduce [4, 7, 4, 9]).1[a]? = (reduce [4, 7, 4, 9]).1[b]? ↔
          ([4, 7, 4, 9] : List ℕ)[a]? = ([4, 7, 4, 9] : List ℕ)[b]?)) :=
  reduce_spec [4, 7, 4, 9] (by decide)

/-- C9: one fold body of `cross_validated_update` relabels only the
temporary copy `z[train]`: the caller's assignment vector is unchanged by
the `reduce` call, the training `update` receives a fresh copy of the
original (uncompacted) selection, and — as the concrete instance
`z = [0, 2]`, `train = [True, True]` shows — those labels can exceed the
newly computed `k - 1` (here label `2` with `k = 2`). -/
theorem cv_fold_step_frame :
    (∀ z train, (cv_fold_step z train).callerZ = z ∧
        (cv_fold_step z train).zForUpdate = maskSelect z train) ∧
      ((cv_fold_step [0, 2] [true, true]).kNew = 2 ∧
        (reduce (maskSelect [0, 2] [true, true])).1 = [0, 1] ∧
        2 ∈ (cv_fold_step [0, 2] [true, true]).zForUpdate) := by
  refine ⟨fun z train => ⟨rfl, rfl⟩, ?_, ?_, ?_⟩ <;> decide

/-- The relabeling pass preserves the number of points. -/
theorem relabel_new_length (k c : ℕ) (z : List ℕ) :
    (relabel_new k c z).length = z.length := by
  induction z generalizing c with
  | nil => rfl
  | cons v rest ih =>
    by_cases h : v = k <;> simp [relabel_new, h, ih]

/-- Entry `i` after the relabeling pass started at count `c`: a position
that drew `k` becomes `k + c +` (number of earlier positions that drew
`k`); any other position is unchanged. -/
theorem relabel_new_getD (k c : ℕ) (z : List ℕ) (i : ℕ) (hi : i < z.length) :
    (relabel_new k c z).getD i 0
      = if z.getD i 0 = k then k + c + (z.take i).count k
        else z.getD i 0 := by
  induction z generalizing c i with
  | nil => simp at hi
  | cons v rest ih =>
    cases i with
    | zero =>
      by_cases h : v = k <;> simp [relabel_new, h]
    | succ i =>
      have hi' : i < rest.length := by simpa using hi
      by_cases h : v = k
      · subst h
        rw [show relabel_new v c (v :: rest)
            = (v + c) :: relabel_new v (c + 1) rest by simp [relabel_new]]
        rw [List.getD_cons_succ, List.getD_cons_succ, ih (c + 1) i hi',
          List.take_succ_cons, List.count_cons]
        have hone : (if (v == v) = true then 1 else 0) = 1 := by simp
        rw [hone]
        by_cases hr : rest.getD i 0 = v
        · rw [if_pos hr, if_pos hr]
          omega
        · rw [if_neg hr, if_neg hr]
      · rw [show relabel_new k c (v :: rest)
            = v :: relabel_new k c rest by simp [relabel_new, h]]
        rw [List.getD_cons_succ, List.getD_cons_succ, ih c i hi',
          List.take_succ_cons, List.count_cons]
        have hzero : (if (v == k) = true then 1 else 0) = 0 := by simp [h]
        rw [hzero]
        by_cases hr : rest.getD i 0 = k
        · rw [if_pos hr, if_pos hr]
          omega
        · rw [if_neg hr, if_neg hr]

/-- Strictly more draws of `k` occur among the first `j` positions than
among the first `i < j` when position `i` itself drew `k`. -/
theorem count_take_lt (z : List ℕ) (k i j : ℕ) (hij : i < j)
    (hj : j ≤ z.length) (hi : z.getD i 0 = k) :
    (z.take i).count k < (z.take j).count k := by
  induction z generalizing i j with
  | nil => simp at hj; omega
  | cons v rest ih =>
    cases i with
    | zero =>
      cases j with
      | zero => omega
      | succ j =>
        have hv : v = k := by simpa using hi
        subst hv
        simp [List.take_succ_cons, List.count_cons]
    | succ i =>
      cases j with
      | zero => omega
      | succ j =>
        have hi' : rest.getD i 0 = k := by simpa using hi
        have := ih i j (by omega) (by simpa using hj) hi'
        simp only [List.take_succ_cons, List.count_cons]
        omega

/-- C1: for every `k` and every base categorical draw `z` with entries in
`[0, k]` (one draw per row of the `(n, k+1)` likelihood matrix),
`IMM.sample_indicator` keeps every point that drew an existing cluster at
its drawn index in `[0, k)` and gives each point that drew the last
("new cluster") column the fresh label `k +` (number of earlier such
points), so those labels are `≥ k`, assigned cumulatively in point order
(`k`, `k+1`, ...) and pairwise distinct. -/
theorem sample_indicator_spec (k : ℕ) (z : List ℕ)
    (hz : ∀ v ∈ z, v ≤ k) :
    (sample_indicator k z).length = z.length ∧
      (∀ i, i < z.length →
        (z.getD i 0 = k →
          (sample_indicator k z).getD i 0 = k + (z.take i).count k) ∧
        (z.getD i 0 ≠ k →
          (sample_indicator k z).getD i 0 = z.getD i 0 ∧
            z.getD i 0 < k)) ∧
      (∀ i j, i < j → j < z.length → z.getD i 0 = k → z.getD j 0 = k →
        (sample_indicator k z).getD i 0 ≠ (sample_indicator k z).getD j 0)
    := by
  refine ⟨relabel_new_length k 0 z, ?_, ?_⟩
  · intro i hi
    constructor
    · intro hik
      rw [sample_indicator, relabel_new_getD k 0 z i hi, if_pos hik]
      omega
    · intro hik
      refine ⟨?_, ?_⟩
      · rw [sample_indicator, relabel_new_getD k 0 z i hi, if_neg hik]
      · have hmem : z.getD i 0 ∈ z := by
          rw [List.getD_eq_getElem z 0 hi]
          exact List.getElem_mem _
        exact lt_of_le_of_ne (hz _ hmem) hik
  · intro i j hij hj hik hjk
    rw [sample_indicator, relabel_new_getD k 0 z i (lt_trans hij hj),
      if_pos hik, relabel_new_getD k 0 z j hj, if_pos hjk]
    have := count_take_lt z k i j hij (le_of_lt hj) hik
    omega

/-- Witness for C1 at `k = 2`, draw `z = [0, 2, 1, 2]`: position 1 (the
first to draw the new-cluster column) gets label `2 + 0`. -/
theorem sample_indicator_spec_witness :
    (sample_indicator 2 [0, 2, 1, 2]).getD 1 0
      = 2 + (([0, 2, 1, 2] : List ℕ).take 1).count 2 :=
  ((sample_indicator_spec 2 [0, 2, 1, 2] (by decide)).2.1 1
    (by decide)).1 (by decide)

/-- One `update` call maps a fully replicated prior state (at least one
row) to the state replicated to the new `k`. -/
theorem update_redim_replicated (k m : ℕ) (hm : 1 ≤ m) (mx : List ℚ)
    (dof shrink detp : ℚ) (ib : List (List ℚ)) :
    update_redim k (replicated_state m mx dof shrink detp ib)
      = some (replicated_state k mx dof shrink detp ib) := by
  cases m with
  | zero => omega
  | succ m => rfl

/-- Any sequence of `update` calls with positive cluster counts keeps the
prior arrays fully replicated from the canonical row, ending replicated to
the last count (or to the starting width if the sequence is empty). -/
theorem update_seq_replicated (ks : List ℕ) (m : ℕ) (hm : 1 ≤ m)
    (hk : ∀ k ∈ ks, 1 ≤ k) (mx : List ℚ) (dof shrink detp : ℚ)
    (ib : List (List ℚ)) :
    update_seq ks (replicated_state m mx dof shrink detp ib)
      = some (replicated_state (ks.getLastD m) mx dof shrink detp ib) := by
  induction ks generalizing m with
  | nil => rfl
  | cons k rest ih =>
    show (update_redim k (replicated_state m mx dof shrink detp ib)
        >>= fun s => update_seq rest s) = _
    rw [update_redim_replicated k m hm mx dof shrink detp ib]
    show update_seq rest (replicated_state k mx dof shrink detp ib) = _
    rw [ih k (hk k (by simp)) (fun b hb => hk b (by simp [hb])),
      List.getLastD_cons]

/-- C5: after `set_priors` followed by any non-empty sequence of `update`
calls (with the positive cluster counts `ks` that `reduce` supplies, and
any data, since `BGMM.update` leaves the prior arrays untouched), each of
the five per-cluster prior arrays — prior means, prior dof, prior
shrinkage, cached determinant, cached inverse prior scale — equals `k`
copies of the canonical row cached by `set_priors`, where `k` is the last
cluster count: in particular each has length `k` and every row equals the
canonical value. -/
theorem update_preserves_priors (mx : List ℚ) (dof shrink detp : ℚ)
    (ib : List (List ℚ)) (ks : List ℕ) (hne : ks ≠ [])
    (hk : ∀ k ∈ ks, 1 ≤ k) :
    ∃ s, update_seq ks (set_priors_state mx dof shrink detp ib) = some s ∧
      s.prior_means = List.replicate (ks.getLast hne) mx ∧
      s.prior_dof = List.replicate (ks.getLast hne) dof ∧
      s.prior_shrinkage = List.replicate (ks.getLast hne) shrink ∧
      s.dets = List.replicate (ks.getLast hne) detp ∧
      s.inv_prior_scale = List.replicate (ks.getLast hne) ib := by
  have h0 : set_priors_state mx dof shrink detp ib
      = replicated_state 1 mx dof shrink detp ib := rfl
  have hlast : ks.getLastD 1 = ks.getLast hne := by
    cases ks with
    | nil => exact absurd rfl hne
    | cons k rest => simp [List.getLastD_eq_getLast?, List.getLast?_eq_getLast]
  rw [h0, update_seq_replicated ks 1 le_rfl hk, hlast]
  exact ⟨_, rfl, rfl, rfl, rfl, rfl, rfl⟩

/-- Witness for C5: canonical row `([0], 3, 1/100, 1, [[1]])`, updates with
`k = 2` then `k = 3`. -/
theorem update_preserves_priors_witness :
    ∃ s, update_seq [2, 3]
        (set_priors_state [0] 3 (1/100) 1 [[1]]) = some s ∧
      s.prior_means = List.replicate 3 [0] ∧
      s.prior_dof = List.replicate 3 3 ∧
      s.prior_shrinkage = List.replicate 3 (1/100) ∧
      s.dets = List.replicate 3 1 ∧
      s.inv_prior_scale = List.replicate 3 [[1]] :=
  update_preserves_priors [0] 3 (1/100) 1 [[1]] [2, 3] (by decide)
    (by decide)

/-- A nonnegative multiple of the outer product of a vector with itself is
positive semidefinite. -/
theorem smul_vecMulVec_posSemidef {d : ℕ} (t : ℝ) (ht : 0 ≤ t)
    (v : Fin d → ℝ) : (t • Matrix.vecMulVec v v).PosSemidef := by
  constructor
  · ext i j
    simp [Matrix.conjTranspose_apply, Matrix.vecMulVec_apply, mul_comm]
  · intro y
    have key : Matrix.dotProduct (star y)
          (Matrix.mulVec (t • Matrix.vecMulVec v v) y)
        = t * (∑ i, v i * y i) ^ 2 := by
      simp only [Matrix.dotProduct, Matrix.mulVec, Matrix.smul_apply,
        Matrix.vecMulVec_apply, Pi.star_apply, star_trivial, smul_eq_mul]
      rw [sq, Finset.sum_mul_sum, Finset.mul_sum]
      apply Finset.sum_congr rfl
      intro i _
      rw [Finset.mul_sum, Finset.mul_sum]
      apply Finset.sum_congr rfl
      intro j _
      ring
    rw [key]
    positivity

/-- C6: for positive-definite prior scale, dof exceeding the dimension and
positive shrinkage, `likelihood_under_the_prior` returns exactly one value
per input point, the determinant inside each point's logarithm is strictly
positive (so the float code takes `log` of a positive number and produces a
finite value, no NaN/Inf), and every returned value is strictly positive. -/
theorem likelihood_under_the_prior_pos {d : ℕ} (a tau0 : ℝ)
    (m : Fin d → ℝ) (b : Matrix (Fin d) (Fin d) ℝ) (x : List (Fin d → ℝ))
    (hb : b.PosDef) (ha : (d : ℝ) < a) (ht : 0 < tau0) :
    (likelihood_under_the_prior a tau0 m b x).length = x.length ∧
      (∀ xi ∈ x, 0 < Matrix.det (b⁻¹
        + (tau0 / (1 + tau0)) • Matrix.vecMulVec (m - xi) (m - xi))) ∧
      (∀ w ∈ likelihood_under_the_prior a tau0 m b x, 0 < w) := by
  have htau : 0 ≤ tau0 / (1 + tau0) :=
    div_nonneg (le_of_lt ht) (by linarith)
  refine ⟨by simp [likelihood_under_the_prior], ?_, ?_⟩
  · intro xi _
    exact ((hb.inv).add_posSemidef
      (smul_vecMulVec_posSemidef (tau0 / (1 + tau0)) htau (m - xi))).det_pos
  · intro w hw
    simp only [likelihood_under_the_prior, List.mem_map] at hw
    rcases hw with ⟨xi, _, rfl⟩
    exact Real.exp_pos _

/-- Witness for C6 at `d = 1`, identity prior scale, `dof = 3`,
`shrinkage = 1`, prior mean `0`, one data point at the origin. -/
theorem likelihood_under_the_prior_pos_witness :
    (likelihood_under_the_prior (d := 1) 3 1 (fun _ => 0) 1
        [fun _ => 0]).length = 1 ∧
      (∀ xi ∈ ([fun _ => 0] : List (Fin 1 → ℝ)),
        0 < Matrix.det ((1 : Matrix (Fin 1) (Fin 1) ℝ)⁻¹
          + ((1 : ℝ) / (1 + 1)) • Matrix.vecMulVec
            ((fun _ => 0) - xi) ((fun _ => 0) - xi))) ∧
      (∀ w ∈ likelihood_under_the_prior (d := 1) 3 1 (fun _ => 0) 1
        [fun _ => 0], 0 < w) := by
  have h := likelihood_under_the_prior_pos (d := 1) 3 1 (fun _ => 0) 1
    [fun _ => 0] Matrix.PosDef.one (by norm_num) one_pos
  simpa using h

/-- C8 counterexample: the data `x = [[1], [1]]` (two identical
one-dimensional points) has centered covariance diagonal `[0]`, yet
`set_priors` does not fail — the source has no validation or `raise`, and
numpy's `1.0/0.0` only warns and yields `inf` — so the claim that it
"fails fast with a clear diagnostic" is false at this input. -/
theorem set_priors_no_fail_fast :
    vx_diag 1 [[1], [1]] = [0] ∧
      set_priorsE 1 [[1], [1]]
        = Except.ok { mx := [1], px_diag := [none], dof := 3,
                      shrinkage := 1 / 100 } := by
  constructor
  · norm_num [vx_diag, col_mean]
  · norm_num [set_priorsE, vx_diag, col_mean, np_recip, List.range_succ]

/-- C8 (amended): whenever a diagonal entry of the centered covariance is
zero, `set_priors` returns normally and the corresponding entry of the
prior scale diagonal `np.diag(1.0/np.diag(vx))` is non-finite (`none`,
modelling the `inf` from `1.0/0.0`), silently propagated to the caches
rather than reported. -/
theorem set_priors_propagates_nonfinite (dim : ℕ) (x : List (List ℚ))
    (t : ℕ) (hz : (vx_diag dim x)[t]? = some 0) :
    ∃ p, set_priorsE dim x = Except.ok p ∧ p.px_diag[t]? = some none := by
  refine ⟨_, rfl, ?_⟩
  show ((vx_diag dim x).map np_recip)[t]? = some none
  rw [List.getElem?_map, hz]
  simp [np_recip]

/-- Witness for the amended C8 at `x = [[1], [1]]`, `dim = 1`, entry 0. -/
theorem set_priors_propagates_nonfinite_witness :
    ∃ p, set_priorsE 1 [[1], [1]] = Except.ok p ∧
      p.px_diag[0]? = some none :=
  set_priors_propagates_nonfinite 1 [[1], [1]] 0
    (by norm_num [vx_diag, col_mean])

end IMMV
